import Mathlib

/-!
Verification of the core of the induction-motor vibration-analysis server:
the RMS computation, the DFT-based dominant-frequency extraction, the
bounded FIFO history buffer, and the per-message handling pipeline.
The definitions below are a shallow embedding of the functions in
`src/Main.py`; fallible code paths (raised exceptions) are modelled with
`Option`, and the process-wide history deque is modelled by explicit
state passing.
-/

open scoped BigOperators

namespace Vibration

/-- `calculate_rms(signal)`, i.e. `np.sqrt(np.mean(np.square(signal)))`:
the square root of the sum of squares divided by the length. -/
noncomputable def calculate_rms (signal : List ℝ) : ℝ :=
  Real.sqrt ((signal.map fun x => x ^ 2).sum / signal.length)

/-- The `k`-th coefficient of `np.fft.fft(signal)` for a real-valued signal of
length `n`: `X_k = Σ_j signal[j] * exp(-2πi·j·k/n)`. -/
noncomputable def dftCoeff (signal : List ℝ) (k : ℕ) : ℂ :=
  ∑ j ∈ Finset.range signal.length,
    (signal.getD j 0 : ℂ) *
      Complex.exp (-(2 * (Real.pi : ℂ) * Complex.I) * ((j : ℂ) * (k : ℂ)) /
        (signal.length : ℂ))

/-- Entry `k` of `np.fft.fftfreq(n, d)`: `k/(n*d)` for the non-negative
frequencies (indices `0 .. (n-1)//2`), and `(k-n)/(n*d)` for the rest. -/
noncomputable def fftfreq (n : ℕ) (d : ℝ) (k : ℕ) : ℝ :=
  if k < (n + 1) / 2 then (k : ℝ) / (n * d) else ((k : ℝ) - n) / (n * d)

/-- `np.argmax`: index of the first occurrence of the maximum. Auxiliary
scan; `i` is the index of the head of the remaining list, `best` the index
of the running maximum `bv`. -/
noncomputable def argmaxAux (i best : ℕ) (bv : ℝ) : List ℝ → ℕ
  | [] => best
  | x :: xs => if bv < x then argmaxAux (i + 1) i x xs else argmaxAux (i + 1) best bv xs

/-- `np.argmax` over a list of reals (the empty case never arises: NumPy
raises there, which the callers below model separately). -/
noncomputable def argmax : List ℝ → ℕ
  | [] => 0
  | x :: xs => argmaxAux 1 0 x xs

/-- The magnitude spectrum `np.abs(np.fft.fft(signal))[: n // 2]`. -/
noncomputable def fftMags (signal : List ℝ) : List ℝ :=
  (((List.range signal.length).map fun k => Complex.abs (dftCoeff signal k)).take
    (signal.length / 2))

/-- The frequency axis `np.fft.fftfreq(n, d=1/sampling_rate)[: n // 2]`. -/
noncomputable def fftFreqsHalf (signal : List ℝ) (sampling_rate : ℝ) : List ℝ :=
  ((List.range signal.length).map (fftfreq signal.length (1 / sampling_rate))).take
    (signal.length / 2)

/-- `perform_fft(signal, sampling_rate)`. `none` models the exceptions the
body can raise: `ZeroDivisionError` from `1 / sampling_rate` when the rate
is zero, and `ValueError` from `np.fft.fft` on zero data points. -/
noncomputable def perform_fft (signal : List ℝ) (sampling_rate : ℝ) :
    Option (List ℝ × List ℝ) :=
  if sampling_rate = 0 then none
  else if signal.length = 0 then none
  else some (fftFreqsHalf signal sampling_rate, fftMags signal)

/-- `analyze_vibration_data(vibration_data, sampling_rate)`: RMS plus
`freqs[np.argmax(fft_values)]`. `none` models a raised exception: either
`perform_fft` failed, or `np.argmax` was applied to an empty magnitude
array (which happens exactly when `n // 2 = 0`). -/
noncomputable def analyze_vibration_data (vibration_data : List ℝ)
    (sampling_rate : ℝ) : Option (ℝ × ℝ) :=
  match perform_fft vibration_data sampling_rate with
  | none => none
  | some (freqs, fft_values) =>
      if fft_values.isEmpty then none
      else some (calculate_rms vibration_data, freqs.getD (argmax fft_values) 0)

/-- One entry of `HISTORICAL_DATA`: timestamp (abstract clock value),
RMS value, dominant frequency. -/
structure Entry where
  ts : ℕ
  rms : ℝ
  df : ℝ

/-- `deque(maxlen=C).append`: append on the right, discarding from the left
whatever exceeds the capacity `C`. -/
def dequeAppend {α : Type} (C : ℕ) (buf : List α) (e : α) : List α :=
  (buf ++ [e]).drop (buf.length + 1 - C)

/-- A whole sequence of appends, oldest first. -/
def appendAll {α : Type} (C : ℕ) (buf : List α) (es : List α) : List α :=
  es.foldl (dequeAppend C) buf

/-- `update_historical_data(analysis_results)` on the capacity-100 deque
`HISTORICAL_DATA`, with the `datetime.now()` clock passed explicitly. -/
def update_historical_data (now : ℕ) (hist : List Entry) (rms df : ℝ) :
    List Entry :=
  dequeAppend 100 hist ⟨now, rms, df⟩

/-- A decoded JSON field value, abstracted to the shapes the handler
distinguishes: a number, an array of numbers, or anything else. -/
inductive JVal where
  | num (x : ℝ)
  | arr (xs : List ℝ)
  | other

/-- A decoded JSON document: either a top-level object with named fields,
or some other JSON value (on which `data["..."]` raises). -/
inductive JTop where
  | obj (fields : List (String × JVal))
  | nonObj

/-- An inbound message after `json.loads`: `none` models text that is not
well-formed JSON (the parser raises). -/
def InMessage : Type := Option JTop

/-- The response serialized back to the client: the success payload
`{"RMS Value": r, "Dominant Frequency": d}` or the error payload
`{"error": ...}`. -/
inductive Resp where
  | success (rms df : ℝ)
  | error

/-- The `"vibration_data"` field key. -/
def vibKey : String := "vibration_data"

/-- The `"sampling_rate"` field key. -/
def rateKey : String := "sampling_rate"

/-- `handle_client_message(client, server, message)`: decode the message,
analyze, append to the history and reply with the results; any exception
along the way is caught and turned into an `{"error": ...}` reply, with
the history left as it was. Returns the new history and the reply. -/
noncomputable def handle_client_message (now : ℕ) (hist : List Entry)
    (message : InMessage) : List Entry × Resp :=
  match message with
  | none => (hist, .error)
  | some .nonObj => (hist, .error)
  | some (.obj fields) =>
      match fields.lookup vibKey, fields.lookup rateKey with
      | some (.arr vibration_data), some (.num sampling_rate) =>
          match analyze_vibration_data vibration_data sampling_rate with
          | none => (hist, .error)
          | some (rms, df) =>
              (update_historical_data now hist rms df, .success rms df)
      | _, _ => (hist, .error)

/-! ### Helper lemmas -/

lemma list_sum_getD (l : List ℝ) :
    l.sum = ∑ i ∈ Finset.range l.length, l.getD i 0 := by
  induction l with
  | nil => simp
  | cons x xs ih =>
      simp only [List.length_cons]
      rw [List.sum_cons, Finset.sum_range_succ']
      simp [ih, add_comm]

lemma sum_sq_eq (signal : List ℝ) :
    (signal.map fun x => x ^ 2).sum =
      ∑ i ∈ Finset.range signal.length, signal.getD i 0 ^ 2 := by
  rw [list_sum_getD, List.length_map]
  refine Finset.sum_congr rfl fun i _ => ?_
  have := @List.getD_map _ _ signal (0 : ℝ) i fun x => x ^ 2
  simpa using this

lemma dequeAppend_length {α : Type} (C : ℕ) (buf : List α) (e : α) :
    (dequeAppend C buf e).length = min (buf.length + 1) C := by
  simp only [dequeAppend, List.length_drop, List.length_append, List.length_cons,
    List.length_nil]
  omega

lemma appendAll_eq {α : Type} (C : ℕ) (es : List α) :
    ∀ buf : List α, buf.length ≤ C →
      appendAll C buf es = (buf ++ es).drop (buf.length + es.length - C) := by
  induction es with
  | nil =>
      intro buf h
      simp only [appendAll, List.foldl_nil, List.append_nil, List.length_nil,
        Nat.add_zero]
      rw [Nat.sub_eq_zero_of_le h, List.drop_zero]
  | cons e tl ih =>
      intro buf h
      have hlen := dequeAppend_length C buf e
      have h1 : (dequeAppend C buf e).length ≤ C := by omega
      have hstep : appendAll C buf (e :: tl) = appendAll C (dequeAppend C buf e) tl := rfl
      rw [hstep, ih _ h1, hlen]
      simp only [dequeAppend]
      rw [← List.drop_append_of_le_length
        (by simp only [List.length_append, List.length_cons, List.length_nil]; omega),
        List.drop_drop]
      have harr : (buf ++ [e]) ++ tl = buf ++ e :: tl := by simp
      rw [harr]
      have hidx : buf.length + 1 - C + (min (buf.length + 1) C + tl.length - C) =
          buf.length + (e :: tl).length - C := by
        simp only [List.length_cons]; omega
      rw [hidx]

lemma argmaxAux_spec (l : List ℝ) :
    ∀ (i best : ℕ) (bv : ℝ),
      (argmaxAux i best bv l = best ∧ ∀ m, m < l.length → l.getD m 0 ≤ bv) ∨
      (∃ m, m < l.length ∧ argmaxAux i best bv l = i + m ∧ bv ≤ l.getD m 0 ∧
        ∀ j, j < l.length → l.getD j 0 ≤ l.getD m 0) := by
  induction l with
  | nil =>
      intro i best bv
      left
      exact ⟨rfl, by intro m hm; simp at hm⟩
  | cons x xs ih =>
      intro i best bv
      by_cases hlt : bv < x
      · rcases ih (i + 1) i x with ⟨he, hall⟩ | ⟨m, hm, he, hge, hall⟩
        · right
          refine ⟨0, by simp, ?_, ?_, ?_⟩
          · simpa [argmaxAux, if_pos hlt] using he
          · simpa using hlt.le
          · intro j hj
            cases j with
            | zero => simp
            | succ j' =>
                simp only [List.getD_cons_succ, List.getD_cons_zero]
                exact hall j' (by simpa using hj)
        · right
          refine ⟨m + 1, by simpa using Nat.succ_lt_succ hm, ?_, ?_, ?_⟩
          · simp only [argmaxAux, if_pos hlt, he]
            omega
          · simp only [List.getD_cons_succ]
            exact hlt.le.trans hge
          · intro j hj
            cases j with
            | zero =>
                simp only [List.getD_cons_zero, List.getD_cons_succ]
                exact hge
            | succ j' =>
                simp only [List.getD_cons_succ]
                exact hall j' (by simpa using hj)
      · rcases ih (i + 1) best bv with ⟨he, hall⟩ | ⟨m, hm, he, hge, hall⟩
        · left
          refine ⟨by simpa [argmaxAux, if_neg hlt] using he, ?_⟩
          intro j hj
          cases j with
          | zero => simpa using le_of_not_lt hlt
          | succ j' =>
              simp only [List.getD_cons_succ]
              exact hall j' (by simpa using hj)
        · right
          refine ⟨m + 1, by simpa using Nat.succ_lt_succ hm, ?_, ?_, ?_⟩
          · simp only [argmaxAux, if_neg hlt, he]
            omega
          · simp only [List.getD_cons_succ]
            exact hge
          · intro j hj
            cases j with
            | zero =>
                simp only [List.getD_cons_zero, List.getD_cons_succ]
                exact (le_of_not_lt hlt).trans hge
            | succ j' =>
                simp only [List.getD_cons_succ]
                exact hall j' (by simpa using hj)

lemma argmax_spec (l : List ℝ) (h : l ≠ []) :
    argmax l < l.length ∧ ∀ j, j < l.length → l.getD j 0 ≤ l.getD (argmax l) 0 := by
  match l, h with
  | x :: xs, _ =>
    have hdef : argmax (x :: xs) = argmaxAux 1 0 x xs := rfl
    rcases argmaxAux_spec xs 1 0 x with ⟨he, hall⟩ | ⟨m, hm, he, hge, hall⟩
    · constructor
      · simp [hdef, he]
      · intro j hj
        rw [hdef, he]
        cases j with
        | zero => simp
        | succ j' =>
            simp only [List.getD_cons_succ, List.getD_cons_zero]
            exact hall j' (by simpa using hj)
    · have hres : argmax (x :: xs) = m + 1 := by rw [hdef, he]; omega
      constructor
      · rw [hres]
        simpa using Nat.succ_lt_succ hm
      · intro j hj
        rw [hres]
        cases j with
        | zero =>
            simp only [List.getD_cons_zero, List.getD_cons_succ]
            exact hge
        | succ j' =>
            simp only [List.getD_cons_succ]
            exact hall j' (by simpa using hj)

lemma getD_map_range {f : ℕ → ℝ} {m j : ℕ} (h : j < m) :
    ((List.range m).map f).getD j 0 = f j := by
  rw [List.getD_eq_getElem?_getD, List.getElem?_map, List.getElem?_range h]
  rfl

lemma fftMags_eq (signal : List ℝ) :
    fftMags signal =
      (List.range (signal.length / 2)).map fun k => Complex.abs (dftCoeff signal k) := by
  rw [fftMags, ← List.map_take, List.take_range, Nat.min_eq_left (Nat.div_le_self _ _)]

lemma fftFreqsHalf_eq (signal : List ℝ) (sr : ℝ) :
    fftFreqsHalf signal sr =
      (List.range (signal.length / 2)).map (fftfreq signal.length (1 / sr)) := by
  rw [fftFreqsHalf, ← List.map_take, List.take_range,
    Nat.min_eq_left (Nat.div_le_self _ _)]

lemma fftMags_length (signal : List ℝ) :
    (fftMags signal).length = signal.length / 2 := by
  rw [fftMags_eq]
  simp

lemma fftMags_getD (signal : List ℝ) {j : ℕ} (h : j < signal.length / 2) :
    (fftMags signal).getD j 0 = Complex.abs (dftCoeff signal j) := by
  rw [fftMags_eq]
  exact getD_map_range h

lemma fftFreqsHalf_getD (signal : List ℝ) (sr : ℝ) {j : ℕ} (h : j < signal.length / 2) :
    (fftFreqsHalf signal sr).getD j 0 = fftfreq signal.length (1 / sr) j := by
  rw [fftFreqsHalf_eq]
  exact getD_map_range h

lemma fftfreq_half {n : ℕ} {sr : ℝ} {k : ℕ} (hk : k < n / 2) (hsr : sr ≠ 0) :
    fftfreq n (1 / sr) k = k * sr / n := by
  have hn : n ≠ 0 := by omega
  have hn' : (n : ℝ) ≠ 0 := Nat.cast_ne_zero.2 hn
  rw [fftfreq, if_pos (by omega)]
  field_simp

/-! ### The concrete 8-sample example signal -/

/-- The example input `[0, 1, 0, -1, 0, 1, 0, -1]`: a pure sinusoid with
period 4 samples. -/
noncomputable def sig8 : List ℝ := [0, 1, 0, -1, 0, 1, 0, -1]

lemma sig8_len : sig8.length = 8 := rfl

/-- The primitive eighth root of unity `exp(-2πi/8)` used by the 8-point DFT. -/
noncomputable def w8 : ℂ := Complex.exp (-(2 * (Real.pi : ℂ) * Complex.I) / 8)

lemma exp_jk (j k : ℕ) :
    Complex.exp (-(2 * (Real.pi : ℂ) * Complex.I) * ((j : ℂ) * (k : ℂ)) /
      ((8 : ℕ) : ℂ)) = w8 ^ (j * k) := by
  rw [w8, ← Complex.exp_nat_mul]
  congr 1
  push_cast
  ring

lemma w8_eq : w8 = ((Real.sqrt 2 : ℝ) : ℂ) / 2 - ((Real.sqrt 2 : ℝ) : ℂ) / 2 * Complex.I := by
  rw [w8]
  have h : -(2 * (Real.pi : ℂ) * Complex.I) / 8 = ((-(Real.pi / 4) : ℝ) : ℂ) * Complex.I := by
    push_cast
    ring
  rw [h, Complex.exp_mul_I, ← Complex.ofReal_cos, ← Complex.ofReal_sin]
  rw [Real.cos_neg, Real.sin_neg, Real.cos_pi_div_four, Real.sin_pi_div_four]
  push_cast
  ring

lemma w8_sq : w8 ^ 2 = -Complex.I := by
  rw [w8_eq]
  have h2 : ((Real.sqrt 2 : ℝ) : ℂ) * ((Real.sqrt 2 : ℝ) : ℂ) = 2 := by
    rw [← Complex.ofReal_mul, Real.mul_self_sqrt (by norm_num)]
    norm_num
  have hI : Complex.I ^ 2 = -1 := Complex.I_sq
  linear_combination ((1 - 2 * Complex.I + Complex.I ^ 2) / 4) * h2 + (1 / 2) * hI

lemma w8_pow4 : w8 ^ 4 = -1 := by
  have h : w8 ^ 4 = (w8 ^ 2) ^ 2 := by ring
  rw [h, w8_sq]
  simp [Complex.I_sq]

lemma w8_pow8 : w8 ^ 8 = 1 := by
  have h : w8 ^ 8 = (w8 ^ 4) ^ 2 := by ring
  rw [h, w8_pow4]
  norm_num

lemma dft_sig8 (k : ℕ) :
    dftCoeff sig8 k = w8 ^ k - w8 ^ (3 * k) + w8 ^ (5 * k) - w8 ^ (7 * k) := by
  rw [dftCoeff]
  simp only [sig8_len]
  rw [Finset.sum_range_succ, Finset.sum_range_succ, Finset.sum_range_succ,
    Finset.sum_range_succ, Finset.sum_range_succ, Finset.sum_range_succ,
    Finset.sum_range_succ, Finset.sum_range_succ, Finset.sum_range_zero]
  rw [exp_jk 0 k, exp_jk 1 k, exp_jk 2 k, exp_jk 3 k, exp_jk 4 k, exp_jk 5 k,
    exp_jk 6 k, exp_jk 7 k]
  simp only [sig8, List.getD_cons_zero, List.getD_cons_succ]
  push_cast
  ring_nf

lemma dft_sig8_0 : dftCoeff sig8 0 = 0 := by
  have h := dft_sig8 0
  norm_num at h
  exact h

lemma dft_sig8_1 : dftCoeff sig8 1 = 0 := by
  have h := dft_sig8 1
  norm_num at h
  rw [h]
  linear_combination (w8 - w8 ^ 3) * w8_pow4

lemma dft_sig8_2 : dftCoeff sig8 2 = -4 * Complex.I := by
  have h := dft_sig8 2
  norm_num at h
  rw [h]
  linear_combination (w8 ^ 2 - w8 ^ 6) * w8_pow8 + (-2 * w8 ^ 2) * w8_pow4 + 4 * w8_sq

lemma dft_sig8_3 : dftCoeff sig8 3 = 0 := by
  have h := dft_sig8 3
  norm_num at h
  rw [h]
  linear_combination (-w8 - w8 ^ 5 + w8 ^ 7 - w8 ^ 13) * w8_pow8 + (w8 ^ 3 - w8) * w8_pow4

lemma fftMags_sig8 : fftMags sig8 = [0, 0, 4, 0] := by
  rw [fftMags_eq]
  have hl : sig8.length / 2 = 4 := by rw [sig8_len]
  rw [hl, show List.range 4 = [0, 1, 2, 3] from rfl]
  simp only [List.map_cons, List.map_nil]
  rw [dft_sig8_0, dft_sig8_1, dft_sig8_2, dft_sig8_3]
  simp [map_mul, Complex.abs_I]

lemma argmax_mags_sig8 : argmax ([0, 0, 4, 0] : List ℝ) = 2 := by
  norm_num [argmax, argmaxAux]

lemma rms_sig8 : calculate_rms sig8 = Real.sqrt (1 / 2) := by
  rw [calculate_rms]
  norm_num [sig8]

lemma freq_sig8 : (fftFreqsHalf sig8 8).getD 2 0 = 2 := by
  rw [fftFreqsHalf_getD sig8 8 (by rw [sig8_len]; norm_num),
    fftfreq_half (by rw [sig8_len]; norm_num) (by norm_num : (8 : ℝ) ≠ 0), sig8_len]
  norm_num

lemma analyze_eq_some {signal : List ℝ} {sr : ℝ} (h2 : 2 ≤ signal.length)
    (hsr : sr ≠ 0) :
    analyze_vibration_data signal sr =
      some (calculate_rms signal,
        (fftFreqsHalf signal sr).getD (argmax (fftMags signal)) 0) := by
  have hn0 : signal.length ≠ 0 := by omega
  have hlen : (fftMags signal).length = signal.length / 2 := fftMags_length signal
  have hnil : fftMags signal ≠ [] := by
    intro hh
    rw [hh] at hlen
    simp only [List.length_nil] at hlen
    omega
  have hEmpty : (fftMags signal).isEmpty = false := by
    cases hmm : fftMags signal with
    | nil => exact absurd hmm hnil
    | cons a l => rfl
  simp only [analyze_vibration_data, perform_fft, if_neg hsr, if_neg hn0, hEmpty,
    Bool.false_eq_true, if_false]

lemma handle_split (now : ℕ) (hist : List Entry) (msg : InMessage) :
    handle_client_message now hist msg = (hist, Resp.error) ∨
    ∃ rms df, handle_client_message now hist msg =
      (update_historical_data now hist rms df, Resp.success rms df) := by
  cases msg with
  | none => exact Or.inl rfl
  | some t =>
    cases t with
    | nonObj => exact Or.inl rfl
    | obj fields =>
      rcases hv : fields.lookup vibKey with _ | v
      · left
        simp [handle_client_message, hv]
      · rcases hr : fields.lookup rateKey with _ | r
        · cases v <;> simp [handle_client_message, hv, hr]
        · cases v with
          | num x => left; simp [handle_client_message, hv, hr]
          | other => left; simp [handle_client_message, hv, hr]
          | arr vd =>
            cases r with
            | arr y => left; simp [handle_client_message, hv, hr]
            | other => left; simp [handle_client_message, hv, hr]
            | num sr =>
              rcases ha : analyze_vibration_data vd sr with _ | ⟨rms, df⟩
              · left
                simp [handle_client_message, hv, hr, ha]
              · right
                exact ⟨rms, df, by simp [handle_client_message, hv, hr, ha]⟩

lemma handle_error_fst (now : ℕ) (hist : List Entry) (msg : InMessage)
    (h : (handle_client_message now hist msg).2 = Resp.error) :
    (handle_client_message now hist msg).1 = hist := by
  rcases handle_split now hist msg with he | ⟨r, d, he⟩
  · rw [he]
  · rw [he] at h
    exact absurd h (by simp)

lemma handle_snd_indep (now : ℕ) (h1 h2 : List Entry) (msg : InMessage) :
    (handle_client_message now h1 msg).2 = (handle_client_message now h2 msg).2 := by
  cases msg with
  | none => rfl
  | some t =>
    cases t with
    | nonObj => rfl
    | obj fields =>
      rcases hv : fields.lookup vibKey with _ | v
      · simp [handle_client_message, hv]
      · rcases hr : fields.lookup rateKey with _ | r
        · cases v <;> simp [handle_client_message, hv, hr]
        · cases v with
          | num x => simp [handle_client_message, hv, hr]
          | other => simp [handle_client_message, hv, hr]
          | arr vd =>
            cases r with
            | arr y => simp [handle_client_message, hv, hr]
            | other => simp [handle_client_message, hv, hr]
            | num sr =>
              rcases ha : analyze_vibration_data vd sr with _ | ⟨rms, df⟩ <;>
                simp [handle_client_message, hv, hr, ha]

/-! ### Claims -/

/-- C4: analyzing `[0, 1, 0, -1, 0, 1, 0, -1]` at sampling rate 8 returns
RMS `sqrt(1/2) ≈ 0.707` (within tolerance `0.001`) and dominant frequency
exactly 2 Hz. -/
theorem end_to_end_example :
    analyze_vibration_data [0, 1, 0, -1, 0, 1, 0, -1] 8 =
      some (Real.sqrt (1 / 2), 2) ∧
    |Real.sqrt (1 / 2) - 0.707| < 1 / 1000 := by
  constructor
  · have hsig : ([0, 1, 0, -1, 0, 1, 0, -1] : List ℝ) = sig8 := rfl
    rw [hsig]
    have hne : (8 : ℝ) ≠ 0 := by norm_num
    have hn0 : sig8.length ≠ 0 := by rw [sig8_len]; norm_num
    have hEmpty : (fftMags sig8).isEmpty = false := by rw [fftMags_sig8]; rfl
    simp only [analyze_vibration_data, perform_fft, if_neg hne, if_neg hn0, hEmpty,
      Bool.false_eq_true, if_false]
    rw [fftMags_sig8, argmax_mags_sig8, freq_sig8, rms_sig8]
  · have hs := Real.sq_sqrt (show (0 : ℝ) ≤ 1 / 2 by norm_num)
    have hnn := Real.sqrt_nonneg (1 / 2 : ℝ)
    rw [abs_sub_lt_iff]
    constructor <;> nlinarith [hs, hnn]

/-- C1: for every sample sequence of length `n ≥ 2` and positive sampling
rate, the analysis succeeds and returns as dominant frequency the frequency
`k * sampling_rate / n` of the bin `k` of maximum DFT-coefficient magnitude
among the first `n / 2` bins (DC bin included), and that frequency lies in
`[0, sampling_rate / 2]`. -/
theorem dominant_frequency_spec (signal : List ℝ) (sr : ℝ)
    (h2 : 2 ≤ signal.length) (hsr : 0 < sr) :
    analyze_vibration_data signal sr =
      some (calculate_rms signal,
        (argmax (fftMags signal) : ℝ) * sr / signal.length) ∧
    argmax (fftMags signal) < signal.length / 2 ∧
    (∀ j, j < signal.length / 2 →
      Complex.abs (dftCoeff signal j) ≤
        Complex.abs (dftCoeff signal (argmax (fftMags signal)))) ∧
    0 ≤ (argmax (fftMags signal) : ℝ) * sr / signal.length ∧
    (argmax (fftMags signal) : ℝ) * sr / signal.length ≤ sr / 2 := by
  have hne : sr ≠ 0 := ne_of_gt hsr
  have hn0 : signal.length ≠ 0 := by omega
  have hlen : (fftMags signal).length = signal.length / 2 := fftMags_length signal
  have hnil : fftMags signal ≠ [] := by
    intro hh
    rw [hh] at hlen
    simp only [List.length_nil] at hlen
    omega
  obtain ⟨hargLt, hargMax⟩ := argmax_spec (fftMags signal) hnil
  rw [hlen] at hargLt
  have hbound : ∀ j, j < signal.length / 2 →
      Complex.abs (dftCoeff signal j) ≤
        Complex.abs (dftCoeff signal (argmax (fftMags signal))) := by
    intro j hj
    have hb := hargMax j (by rw [hlen]; exact hj)
    rwa [fftMags_getD signal hj, fftMags_getD signal hargLt] at hb
  have hfreq : (fftFreqsHalf signal sr).getD (argmax (fftMags signal)) 0 =
      (argmax (fftMags signal) : ℝ) * sr / signal.length := by
    rw [fftFreqsHalf_getD signal sr hargLt, fftfreq_half hargLt hne]
  have hEmpty : (fftMags signal).isEmpty = false := by
    cases hmm : fftMags signal with
    | nil => exact absurd hmm hnil
    | cons a l => rfl
  have hnpos : (0 : ℝ) < signal.length := by
    exact_mod_cast Nat.pos_of_ne_zero hn0
  refine ⟨?_, hargLt, hbound,
    div_nonneg (mul_nonneg (Nat.cast_nonneg _) hsr.le) (Nat.cast_nonneg _), ?_⟩
  · simp only [analyze_vibration_data, perform_fft, if_neg hne, if_neg hn0, hEmpty,
      Bool.false_eq_true, if_false]
    rw [hfreq]
  · have hk2 : 2 * argmax (fftMags signal) ≤ signal.length := by omega
    have hcast : 2 * (argmax (fftMags signal) : ℝ) ≤ (signal.length : ℝ) := by
      exact_mod_cast hk2
    rw [div_le_div_iff hnpos two_pos]
    nlinarith [mul_le_mul_of_nonneg_left hcast hsr.le]

/-- C1 witness: the two-sample signal `[1, 2]` at rate 2 is analyzed
successfully; its single spectral bin is the DC bin, at frequency 0, which
lies in `[0, 1]`. -/
theorem dominant_frequency_spec_witness :
    analyze_vibration_data [1, 2] 2 =
      some (calculate_rms [1, 2],
        (argmax (fftMags [1, 2]) : ℝ) * 2 / ([1, 2] : List ℝ).length) ∧
    argmax (fftMags [1, 2]) < ([1, 2] : List ℝ).length / 2 ∧
    (∀ j, j < ([1, 2] : List ℝ).length / 2 →
      Complex.abs (dftCoeff [1, 2] j) ≤
        Complex.abs (dftCoeff [1, 2] (argmax (fftMags [1, 2])))) ∧
    0 ≤ (argmax (fftMags [1, 2]) : ℝ) * 2 / ([1, 2] : List ℝ).length ∧
    (argmax (fftMags [1, 2]) : ℝ) * 2 / ([1, 2] : List ℝ).length ≤ 2 / 2 :=
  dominant_frequency_spec [1, 2] 2 (by norm_num) (by norm_num)

/-- C2: for every non-empty sample sequence, the computed RMS equals
`sqrt(mean(signal[i]^2))`; consequently it is `≥ 0`, and for an all-zero
signal it equals exactly `0`. -/
theorem rms_spec (signal : List ℝ) (h : signal ≠ []) :
    calculate_rms signal =
      Real.sqrt ((∑ i ∈ Finset.range signal.length, signal.getD i 0 ^ 2) /
        signal.length) ∧
    0 ≤ calculate_rms signal ∧
    ((∀ x ∈ signal, x = 0) → calculate_rms signal = 0) := by
  refine ⟨?_, Real.sqrt_nonneg _, ?_⟩
  · rw [calculate_rms, sum_sq_eq]
  · intro hz
    rw [calculate_rms]
    have hsum : (signal.map fun x => x ^ 2).sum = 0 := by
      apply List.sum_eq_zero
      intro y hy
      rcases List.mem_map.1 hy with ⟨x, hx, rfl⟩
      rw [hz x hx]
      norm_num
    rw [hsum, zero_div, Real.sqrt_zero]

/-- C2 witness: the RMS of the all-zero two-sample signal is exactly `0`. -/
theorem rms_spec_witness : calculate_rms [0, 0] = 0 :=
  (rms_spec [0, 0] (by simp)).2.2 (by simp)

/-- C3: the history buffer of capacity 100 never exceeds its capacity;
below capacity every append is retained in insertion order; appending
101 entries evicts exactly the oldest one; and after any overflow the
buffer holds exactly the most recent 100 entries in original order. -/
theorem history_fifo_spec (es : List Entry) :
    (appendAll 100 [] es).length ≤ 100 ∧
    (es.length ≤ 100 → appendAll 100 [] es = es) ∧
    (es.length = 101 → appendAll 100 [] es = es.tail) ∧
    (100 ≤ es.length → appendAll 100 [] es = es.drop (es.length - 100)) := by
  have key := appendAll_eq 100 es [] (by simp)
  simp only [List.nil_append, List.length_nil, Nat.zero_add] at key
  refine ⟨?_, ?_, ?_, ?_⟩
  · rw [key]
    simp only [List.length_drop]
    omega
  · intro h
    rw [key, Nat.sub_eq_zero_of_le h, List.drop_zero]
  · intro h
    rw [key, h]
    norm_num [List.drop_one]
  · intro h
    rw [key]

/-- C3 witness: appending 101 entries to the empty buffer evicts exactly
the oldest one, leaving 100 entries. -/
theorem history_fifo_spec_witness :
    appendAll 100 [] (List.replicate 101 (Entry.mk 0 0 0)) =
      (List.replicate 101 (Entry.mk 0 0 0)).tail ∧
    (appendAll 100 [] (List.replicate 101 (Entry.mk 0 0 0))).length ≤ 100 :=
  ⟨(history_fifo_spec (List.replicate 101 (Entry.mk 0 0 0))).2.2.1 (by simp),
   (history_fifo_spec (List.replicate 101 (Entry.mk 0 0 0))).1⟩

/-- C5 counterexample: a message with non-empty `vibration_data` and the
strictly negative `sampling_rate = -8` is NOT answered with an error
response: the handler accepts it and replies with a success payload, so
the claim that every `sampling_rate ≤ 0` yields a validation-error
response is false. -/
theorem negative_rate_accepted :
    (handle_client_message 0 []
      (some (JTop.obj [(vibKey, JVal.arr [0, 1, 0, -1]),
        (rateKey, JVal.num (-8))]))).2 =
      Resp.success (calculate_rms [0, 1, 0, -1])
        ((fftFreqsHalf [0, 1, 0, -1] (-8)).getD
          (argmax (fftMags [0, 1, 0, -1])) 0) := by
  have hv : [(vibKey, JVal.arr [0, 1, 0, -1]),
      (rateKey, JVal.num (-8))].lookup vibKey = some (JVal.arr [0, 1, 0, -1]) := rfl
  have hr : [(vibKey, JVal.arr [0, 1, 0, -1]),
      (rateKey, JVal.num (-8))].lookup rateKey = some (JVal.num (-8)) := rfl
  have hana := @analyze_eq_some [0, 1, 0, -1] (-8) (by norm_num) (by norm_num)
  simp only [handle_client_message, hv, hr, hana]

/-- C5 (amended): a message whose `vibration_data` is empty or whose
`sampling_rate` is zero is answered with an error response (the handler
never crashes); a strictly negative rate, however, is accepted (see the
counterexample). -/
theorem validation_error_spec (now : ℕ) (hist : List Entry)
    (fields : List (String × JVal)) (vd : List ℝ) (sr : ℝ)
    (hvd : fields.lookup vibKey = some (JVal.arr vd))
    (hsr : fields.lookup rateKey = some (JVal.num sr))
    (h : vd = [] ∨ sr = 0) :
    (handle_client_message now hist (some (JTop.obj fields))).2 = Resp.error := by
  have hana : analyze_vibration_data vd sr = none := by
    rcases h with h | h
    · subst h
      by_cases hz : sr = 0
      · simp [analyze_vibration_data, perform_fft, hz]
      · simp [analyze_vibration_data, perform_fft, hz]
    · subst h
      simp [analyze_vibration_data, perform_fft]
  simp [handle_client_message, hvd, hsr, hana]

/-- C5 witness: the empty-`vibration_data` message is answered with an
error response. -/
theorem validation_error_spec_witness :
    (handle_client_message 0 []
      (some (JTop.obj [(vibKey, JVal.arr []), (rateKey, JVal.num 8)]))).2 =
      Resp.error :=
  validation_error_spec 0 [] _ [] 8 rfl rfl (Or.inl rfl)

/-- C6: contrary to the spec, a single-sample input is not analyzed
successfully: slicing to the first `1 // 2 = 0` bins leaves empty arrays
and `np.argmax` raises, so `analyze_vibration_data` fails for every
single-sample input (the handler catches this and replies with an error
response instead of a degenerate result). -/
theorem single_sample_fails (x sr : ℝ) (now : ℕ) (hist : List Entry) :
    analyze_vibration_data [x] sr = none ∧
    (handle_client_message now hist
      (some (JTop.obj [(vibKey, JVal.arr [x]), (rateKey, JVal.num sr)]))).2 =
      Resp.error := by
  have hana : analyze_vibration_data [x] sr = none := by
    by_cases hz : sr = 0
    · simp [analyze_vibration_data, perform_fft, hz]
    · simp [analyze_vibration_data, perform_fft, hz, fftMags]
  have hv : [(vibKey, JVal.arr [x]), (rateKey, JVal.num sr)].lookup vibKey =
      some (JVal.arr [x]) := rfl
  have hr : [(vibKey, JVal.arr [x]), (rateKey, JVal.num sr)].lookup rateKey =
      some (JVal.num sr) := rfl
  exact ⟨hana, by simp [handle_client_message, hv, hr, hana]⟩

/-- C7: a message that fails to decode is answered with an error response;
any failed message leaves the history unchanged, so a subsequent message
on the same connection is processed exactly as if the failure had never
happened; the handler itself is total (the catch-all except turns every
exception into an error reply). -/
theorem error_containment_spec (now later : ℕ) (hist : List Entry)
    (msg m2 : InMessage) :
    (handle_client_message now hist none).2 = Resp.error ∧
    ((handle_client_message now hist msg).2 = Resp.error →
      (handle_client_message now hist msg).1 = hist ∧
      handle_client_message later (handle_client_message now hist msg).1 m2 =
        handle_client_message later hist m2) := by
  refine ⟨rfl, fun herr => ?_⟩
  have hfst := handle_error_fst now hist msg herr
  exact ⟨hfst, by rw [hfst]⟩

/-- C7 witness: after a decode failure on the empty history, the history
is unchanged and a following message is processed as from scratch. -/
theorem error_containment_spec_witness :
    (handle_client_message 0 [] none).1 = [] ∧
    handle_client_message 1 (handle_client_message 0 [] none).1 none =
      handle_client_message 1 [] none :=
  (error_containment_spec 0 1 [] none none).2 rfl

/-- C9: the analyzer is deterministic (two runs on the same arguments give
the same result) and reads no shared state: the response computed for a
message is the same whatever the current history buffer contains. -/
theorem analyzer_pure_spec (vd : List ℝ) (sr : ℝ) (now : ℕ)
    (h1 h2 : List Entry) (msg : InMessage) :
    analyze_vibration_data vd sr = analyze_vibration_data vd sr ∧
    (handle_client_message now h1 msg).2 = (handle_client_message now h2 msg).2 :=
  ⟨rfl, handle_snd_indep now h1 h2 msg⟩

/-- C10: message handling is atomic with respect to the history buffer: a
message answered with an error leaves the history exactly unchanged, and a
message answered with success appends exactly its analysis result. -/
theorem history_update_atomic_spec (now : ℕ) (hist : List Entry)
    (msg : InMessage) :
    ((handle_client_message now hist msg).2 = Resp.error →
      (handle_client_message now hist msg).1 = hist) ∧
    ∀ rms df, (handle_client_message now hist msg).2 = Resp.success rms df →
      (handle_client_message now hist msg).1 =
        update_historical_data now hist rms df := by
  rcases handle_split now hist msg with he | ⟨r, d, he⟩
  · constructor
    · intro _
      rw [he]
    · intro rms df hsucc
      rw [he] at hsucc
      exact absurd hsucc (by simp)
  · constructor
    · intro herr
      rw [he] at herr
      exact absurd herr (by simp)
    · intro rms df hsucc
      rw [he] at hsucc
      obtain ⟨hr, hd⟩ := Resp.success.inj hsucc
      rw [he, hr, hd]

/-- C10 witness: a decode failure on a concrete history leaves it exactly
unchanged. -/
theorem history_update_atomic_spec_witness :
    (handle_client_message 0 [] none).1 = [] :=
  (history_update_atomic_spec 0 [] none).1 rfl

end Vibration
